import Mathlib

/-!
Verification of the logback-rs core: the template formatter, the
identifier compressor (`Source::reduced`) and the `LogLevel` severity
type, shallowly embedded from `src/lib.rs`.  Strings are modelled as
`List Char` (the source manipulates single-byte characters; `len`,
`split_at` and `chars` all agree with the character view on the inputs
exercised here).  A Rust function that can panic is embedded as a
function into `Option`, with `none` standing for the panic.
-/

namespace Logback

/-- The escape character `\` from `format`. -/
def escChar : Char := '\\'

/-- The anchor-opening character `{`. -/
def openChar : Char := '{'

/-- The anchor-closing character `}`. -/
def closeChar : Char := '}'

/-- The reserved null-sentinel argument value (`NULL_STRING` in `format`). -/
def nullSentinel : List Char := "NULL_ARGUMENT_ARRAY_ELEMENT".data

/-- The literal text substituted for the null sentinel (`NULL` in `format`). -/
def nullText : List Char := "null".data

/-- Embedding of `template.contains("{}")`: the template has the
two-character substring `{}` somewhere. -/
def containsAnchor : List Char → Bool
  | [] => false
  | c :: rest =>
    match c, rest with
    | '{', '}' :: _ => true
    | _, _ => containsAnchor rest

/-- The scanning loop of `format` in `src/lib.rs` (lines 118-147): a
peekable character cursor over the template together with the iterator
over the remaining arguments.  Each match arm mirrors one arm of the
Rust `match`. -/
def formatLoop : List Char → List (List Char) → List Char
  | '\\' :: '{' :: '}' :: rest, args =>
    -- ESC with next OPEN and peek CLOSE: emit `{`; the `}` is left in
    -- the stream and handled as a plain character on the next step
    '{' :: formatLoop ('}' :: rest) args
  | '\\' :: c :: rest, args =>
    -- ESC followed by anything else: keep the escape and the character
    '\\' :: c :: formatLoop rest args
  | ['\\'], _ => ['\\']
  | '{' :: '}' :: rest, a :: args =>
    -- unescaped anchor with an argument available
    (if a = nullSentinel then nullText else a) ++ formatLoop rest args
  | '{' :: '}' :: rest, [] =>
    -- arguments exhausted: literal anchor then the raw remainder
    '{' :: '}' :: rest
  | c :: rest, args => c :: formatLoop rest args
  | [], _ => []

/-- Embedding of `format` in `src/lib.rs` (lines 107-152): the fast path
returns the template unchanged when the arguments are empty or the
template has no `{}`; otherwise the scanning loop runs. -/
def format (template : List Char) (args : List (List Char)) : List Char :=
  if !args.isEmpty && containsAnchor template then
    formatLoop template args
  else
    template

/-- Embedding of `self.0.split('.')`: split on every `.`, keeping empty
pieces; the result is always non-empty. -/
def splitOnDot : List Char → List (List Char)
  | [] => [[]]
  | c :: rest =>
    if c = '.' then [] :: splitOnDot rest
    else
      match splitOnDot rest with
      | p :: ps => (c :: p) :: ps
      | [] => [[c]]

/-- Embedding of `res.join(".")`. -/
def joinDot : List (List Char) → List Char
  | [] => []
  | [p] => p
  | p :: ps => p ++ '.' :: joinDot ps

/-- The `for part in parts` loop of `Source::reduced` (lines 74-81):
walks the non-final segments carrying the running `cut` counter;
a segment is replaced by its first character while the uncut length
still exceeds the target.  `part.split_at(1)` panics on an empty
segment, which the embedding reports as `none`. -/
def reduceParts (len target : Nat) : List (List Char) → Nat → Option (List (List Char))
  | [], _ => some []
  | p :: rest, cut =>
    if len - cut > target then
      match p with
      | [] => none
      | c :: _ =>
        (reduceParts len target rest (cut + (p.length - 1))).map (fun r => [c] :: r)
    else
      (reduceParts len target rest cut).map (fun r => p :: r)

/-- Embedding of `Source::reduced` in `src/lib.rs` (lines 65-85): return
the identifier unchanged when it already fits, otherwise pop the class
segment, shorten the leading segments and re-join with `.`.  `none`
models a panic of the Rust code. -/
def reduced (s : List Char) (target : Nat) : Option (List Char) :=
  if s.length ≤ target then some s
  else
    let parts := splitOnDot s
    let cls := parts.getLastD []
    (reduceParts s.length target parts.dropLast 0).map
      (fun res => joinDot (res ++ [cls]))

/-- The evolution of the `cut` counter of `Source::reduced`, abstracted
to the lengths of the non-final segments: returns the final value of
`cut` after walking all segments. -/
def cutAmount (len target : Nat) : List Nat → Nat → Nat
  | [], cut => cut
  | l :: rest, cut =>
    if len - cut > target then cutAmount len target rest (cut + (l - 1))
    else cutAmount len target rest cut

/-- Embedding of the `Error` enum of `src/lib.rs`. -/
inductive Error where
  | UnknownLogLevel : List Char → Error
  deriving DecidableEq

/-- Embedding of the `LogLevel` enum of `src/lib.rs` (lines 261-269),
in declaration order. -/
inductive LogLevel where
  | Trace
  | Debug
  | Info
  | Warn
  | Error
  | Unknown
  deriving DecidableEq

/-- The discriminant of a `LogLevel` variant, in declaration order. -/
def LogLevel.discrim : LogLevel → Nat
  | .Trace => 0
  | .Debug => 1
  | .Info => 2
  | .Warn => 3
  | .Error => 4
  | .Unknown => 5

/-- The derived `PartialOrd::partial_cmp` for the fieldless enum
`LogLevel`: compare discriminants; never `None`. -/
def LogLevel.partialCmp (a b : LogLevel) : Option Ordering :=
  some (compare a.discrim b.discrim)

/-- Rust `a < b` via the derived `PartialOrd`: holds exactly when
`partial_cmp` is `Some(Less)`. -/
def LogLevel.ltB (a b : LogLevel) : Bool :=
  match LogLevel.partialCmp a b with
  | some .lt => true
  | _ => false

/-- Rust `a >= b` via the derived `PartialOrd`: holds exactly when
`partial_cmp` is `Some(Greater)` or `Some(Equal)`. -/
def LogLevel.geB (a b : LogLevel) : Bool :=
  match LogLevel.partialCmp a b with
  | some .gt => true
  | some .eq => true
  | _ => false

/-- Embedding of Rust `char::to_lowercase` restricted to the ASCII
range, applied characterwise as `str::to_lowercase` does. -/
def toLowercase (s : List Char) : List Char :=
  s.map Char.toLower

/-- Embedding of `LogLevel::from_str` in `src/lib.rs` (lines 304-316):
lowercase the input and match it against the level tokens; anything
else is an `UnknownLogLevel` error carrying the original input. -/
def LogLevel.fromStr (s : List Char) : Except Logback.Error LogLevel :=
  let l := toLowercase s
  if l = "t".data ∨ l = "trace".data then .ok .Trace
  else if l = "d".data ∨ l = "debug".data then .ok .Debug
  else if l = "i".data ∨ l = "info".data then .ok .Info
  else if l = "w".data ∨ l = "warn".data then .ok .Warn
  else if l = "e".data ∨ l = "error".data then .ok .Error
  else .error (.UnknownLogLevel s)

/-- The lowercased tokens accepted by `LogLevel::from_str`. -/
def levelTokens : List (List Char) :=
  ["t".data, "trace".data, "d".data, "debug".data, "i".data,
   "info".data, "w".data, "warn".data, "e".data, "error".data]

/-- The lower bound, in nanoseconds, of the date range representable by
the external `time` crate (`-9999-01-01T00:00:00Z` without the
large-dates feature).  Modelled from the documented behaviour of
`OffsetDateTime::from_unix_timestamp_nanos`, which is outside this
repository. -/
def minValidNanos : Int := -377705116800000000000

/-- The upper bound, in nanoseconds, of the representable date range
(`9999-12-31T23:59:59.999999999Z`). -/
def maxValidNanos : Int := 253402300799999999999

/-- Model of `OffsetDateTime::from_unix_timestamp_nanos` from the
external `time` crate: succeeds exactly when the nanosecond timestamp
falls in the representable date range, returning the instant (kept
abstract as its nanosecond value). -/
def fromUnixTimestampNanos (n : Int) : Option Int :=
  if minValidNanos ≤ n ∧ n ≤ maxValidNanos then some n else none

/-- Embedding of `LogEvent::time` in `src/lib.rs` (lines 158-161):
multiply the stored millisecond timestamp by 1,000,000 and unwrap the
conversion; `none` models the panic of `unwrap`. -/
def LogEvent.time (timeStamp : Int) : Option Int :=
  fromUnixTimestampNanos (1000000 * timeStamp)

/-- The `i64` range of the stored `time_stamp` field. -/
def isI64 (n : Int) : Prop :=
  -(2 ^ 63) ≤ n ∧ n < 2 ^ 63

/-! Sanity checks: the embedding reproduces the repository's own test
suites `test_format` and `test_source_reduction`. -/

example : format "no anchors".data [] = "no anchors".data := by decide
example : format "single \x7b\x7d anchor".data ["central".data] =
    "single central anchor".data := by decide
example : format "unused arg".data ["foo".data] = "unused arg".data := by decide
example : format "unused \x7b\x7d anchor".data [] = "unused \x7b\x7d anchor".data := by
  decide
example : format "escaped escape \\\\\x7b\x7d".data ["foo".data] =
    "escaped escape \\\\foo".data := by decide
example : format "Partially escaped \\\x7b anchor".data [] =
    "Partially escaped \\\x7b anchor".data := by decide
example : format "Partially escaped \\\x7b anchor with \x7b\x7d".data ["arg".data] =
    "Partially escaped \\\x7b anchor with arg".data := by decide
example : format "End with \x7b\x7d escape\\".data ["final".data] =
    "End with final escape\\".data := by decide
example : format "Too \x7b\x7d arguments \x7b\x7d".data ["few".data] =
    "Too few arguments \x7b\x7d".data := by decide
example : format "Too \x7b\x7d arguments".data ["many".data, "ignored".data] =
    "Too many arguments".data := by decide
example : format "Not \x7b\x7d an \x7banchor\x7d".data ["really".data] =
    "Not really an \x7banchor\x7d".data := by decide

example : reduced "uk.ac.diamond.daq.persistence.jythonshelf".data 20 =
    some "u.a.d.d.p.jythonshelf".data := by decide
example : reduced "uk.ac.diamond.daq.persistence.jythonshelf".data 30 =
    some "u.a.d.d.p.jythonshelf".data := by decide
example : reduced "uk.ac.diamond.daq.persistence.jythonshelf".data 32 =
    some "u.a.d.d.persistence.jythonshelf".data := by decide
example : reduced "uk.ac.diamond.daq.persistence.jythonshelf".data 33 =
    some "u.a.d.daq.persistence.jythonshelf".data := by decide
example : reduced "uk.ac.diamond.daq.persistence.jythonshelf".data 39 =
    some "u.a.diamond.daq.persistence.jythonshelf".data := by decide
example : reduced "uk.ac.diamond.daq.persistence.jythonshelf".data 40 =
    some "u.ac.diamond.daq.persistence.jythonshelf".data := by decide
example : reduced "uk.ac.diamond.daq.persistence.jythonshelf".data 41 =
    some "uk.ac.diamond.daq.persistence.jythonshelf".data := by decide
example : reduced "uk.ac.diamond.daq.persistence.jythonshelf".data 50 =
    some "uk.ac.diamond.daq.persistence.jythonshelf".data := by decide
example : reduced "gda.device.scannable.ScannableMotor".data 30 =
    some "g.d.scannable.ScannableMotor".data := by decide
example :
    reduced "gdascripts.scan.process.ScanDataProcessorResult.ScanDataProcessorResult".data
      30 = some "g.s.p.S.ScanDataProcessorResult".data := by decide

/-! ### Helper lemmas about the formatter -/

/-- Pushing a cons through `getLast?` of a non-empty list. -/
lemma getLast?_cons_some {α : Type} {c x : α} {l : List α}
    (h : l.getLast? = some x) : (c :: l).getLast? = some x := by
  cases l with
  | nil => simp at h
  | cons y ys => rw [List.getLast?_cons_cons]; exact h

/-- When the scanner's input ends with the escape character, so does its
output: every branch of the loop either copies the trailing escape or
hands it to a recursive call. -/
lemma formatLoop_getLast_esc (cs : List Char) (args : List (List Char))
    (h : cs.getLast? = some escChar) :
    (formatLoop cs args).getLast? = some escChar := by
  induction cs, args using formatLoop.induct with
  | case1 rest args ih =>
    rw [formatLoop]
    rw [List.getLast?_cons_cons, List.getLast?_cons_cons] at h
    exact getLast?_cons_some (ih h)
  | case2 c rest args hne ih =>
    rw [formatLoop]
    · rcases rest with _ | ⟨y, ys⟩
      · rw [List.getLast?_cons_cons] at h
        simp only [List.getLast?_singleton, Option.some.injEq] at h
        subst h; rfl
      · rw [List.getLast?_cons_cons, List.getLast?_cons_cons] at h
        exact getLast?_cons_some (getLast?_cons_some (ih h))
    · exact hne
  | case3 args => exact h
  | case4 rest a args ih =>
    rw [formatLoop]
    rcases rest with _ | ⟨y, ys⟩
    · rw [List.getLast?_cons_cons] at h
      simp only [List.getLast?_singleton, Option.some.injEq] at h
      exact absurd h (by decide)
    · rw [List.getLast?_cons_cons, List.getLast?_cons_cons] at h
      rw [List.getLast?_append, ih h]; rfl
  | case5 rest => rw [formatLoop]; exact h
  | case6 c rest args h1 h2 h3 h4 h5 ih =>
    rw [formatLoop]
    · rcases rest with _ | ⟨y, ys⟩
      · exact h
      · rw [List.getLast?_cons_cons] at h
        exact getLast?_cons_some (ih h)
    · exact h1
    · exact h2
    · exact h3
    · exact h4
    · exact h5
  | case7 args => simp at h

/-! ### Claims about the formatter -/

/-- C1 (counterexample): for the template `a{}b\` (one anchor
substitution, so the slow path is taken) and the non-empty argument
list `["x"]`, the rendered message is `axb\`: the trailing escape is
emitted, so the message does not end where the last non-escape
character `b` ends. -/
theorem format_trailing_escape_swallowed_cex :
    format "a\x7b\x7db\\".data ["x".data] = "axb\\".data ∧
    (format "a\x7b\x7db\\".data ["x".data]).getLast? = some escChar := by
  decide

/-- C1 (amended): for every template that ends with the escape
character and every argument list, the Formatter emits the trailing
escape character verbatim: the rendered message ends with `\`. -/
theorem format_trailing_escape_kept (t : List Char) (args : List (List Char)) :
    (format (t ++ [escChar]) args).getLast? = some escChar := by
  unfold format
  split
  · exact formatLoop_getLast_esc _ _ (List.getLast?_concat t)
  · exact List.getLast?_concat t

/-- C3: when the scan reaches an unescaped anchor and no argument
remains, the loop emits the literal `{}` followed by the entire
unprocessed remainder verbatim and terminates; in particular
`format("Too {} arguments {}", ["few"]) = "Too few arguments {}"`, and
anchors and escapes in the copied remainder are not interpreted. -/
theorem format_too_few_args_fallback :
    (∀ rest : List Char, formatLoop ('{' :: '}' :: rest) [] = '{' :: '}' :: rest) ∧
    format "Too \x7b\x7d arguments \x7b\x7d".data ["few".data] =
      "Too few arguments \x7b\x7d".data ∧
    format "\x7b\x7d\x7b\x7d\\\x7b\x7d".data ["a".data] =
      "a\x7b\x7d\\\x7b\x7d".data := by
  refine ⟨fun rest => rfl, by decide, by decide⟩

/-- C6: whenever the scanner sees `\` then `{` then `}`, it emits one
literal `{`, the `}` is emitted as plain text on the next step, and the
argument list is passed on untouched; concretely an escaped anchor
before a live anchor renders as `{}` and consumes no argument. -/
theorem format_escaped_anchor :
    (∀ (rest : List Char) (args : List (List Char)),
      formatLoop ('\\' :: '{' :: '}' :: rest) args =
        openChar :: closeChar :: formatLoop rest args) ∧
    format "\\\x7b\x7d \x7b\x7d".data ["a".data] = "\x7b\x7d a".data := by
  refine ⟨fun rest args => rfl, by decide⟩

/-- C7: an unescaped anchor with an argument available substitutes the
literal text `null` when the argument equals the null sentinel, and the
argument verbatim otherwise. -/
theorem format_null_sentinel :
    (∀ (rest : List Char) (args : List (List Char)) (a : List Char),
      formatLoop ('{' :: '}' :: rest) (a :: args) =
        (if a = nullSentinel then nullText else a) ++ formatLoop rest args) ∧
    format "value: \x7b\x7d".data ["NULL_ARGUMENT_ARRAY_ELEMENT".data] =
      "value: null".data ∧
    format "value: \x7b\x7d".data ["foo".data] = "value: foo".data := by
  refine ⟨fun rest args a => rfl, by decide, by decide⟩

/-! ### Claims about `LogLevel` -/

/-- Two string disjunctions over distinct literals are incompatible. -/
lemma two_or_ne {l a b c d : List Char} (h : l = a ∨ l = b)
    (h1 : a ≠ c) (h2 : a ≠ d) (h3 : b ≠ c) (h4 : b ≠ d) :
    ¬(l = c ∨ l = d) := by
  rcases h with rfl | rfl <;> rintro (h | h) <;> simp_all

/-- C8: severity parsing succeeds exactly on the case-insensitive
tokens `t`/`trace`, `d`/`debug`, `i`/`info`, `w`/`warn`, `e`/`error`,
mapping each to its named level, and fails on every other input with an
`UnknownLogLevel` error carrying that exact input string. -/
theorem fromStr_exact :
    (∀ s, LogLevel.fromStr s = .ok .Trace ↔
      (toLowercase s = "t".data ∨ toLowercase s = "trace".data)) ∧
    (∀ s, LogLevel.fromStr s = .ok .Debug ↔
      (toLowercase s = "d".data ∨ toLowercase s = "debug".data)) ∧
    (∀ s, LogLevel.fromStr s = .ok .Info ↔
      (toLowercase s = "i".data ∨ toLowercase s = "info".data)) ∧
    (∀ s, LogLevel.fromStr s = .ok .Warn ↔
      (toLowercase s = "w".data ∨ toLowercase s = "warn".data)) ∧
    (∀ s, LogLevel.fromStr s = .ok .Error ↔
      (toLowercase s = "e".data ∨ toLowercase s = "error".data)) ∧
    (∀ s, LogLevel.fromStr s = .error (.UnknownLogLevel s) ↔
      toLowercase s ∉ levelTokens) ∧
    LogLevel.fromStr "WARN".data = .ok .Warn ∧
    LogLevel.fromStr "w".data = .ok .Warn ∧
    LogLevel.fromStr "bogus".data = .error (.UnknownLogLevel "bogus".data) := by
  refine ⟨?_, ?_, ?_, ?_, ?_, ?_, rfl, rfl, rfl⟩ <;>
      intro s <;> unfold LogLevel.fromStr <;> dsimp only <;>
      split_ifs with h1 h2 h3 h4 h5
  · exact iff_of_true rfl h1
  · exact iff_of_false (by simp) h1
  · exact iff_of_false (by simp) h1
  · exact iff_of_false (by simp) h1
  · exact iff_of_false (by simp) h1
  · exact iff_of_false (by simp) h1
  · exact iff_of_false (by simp)
      (two_or_ne h1 (by decide) (by decide) (by decide) (by decide))
  · exact iff_of_true rfl h2
  · exact iff_of_false (by simp) h2
  · exact iff_of_false (by simp) h2
  · exact iff_of_false (by simp) h2
  · exact iff_of_false (by simp) h2
  · exact iff_of_false (by simp)
      (two_or_ne h1 (by decide) (by decide) (by decide) (by decide))
  · exact iff_of_false (by simp)
      (two_or_ne h2 (by decide) (by decide) (by decide) (by decide))
  · exact iff_of_true rfl h3
  · exact iff_of_false (by simp) h3
  · exact iff_of_false (by simp) h3
  · exact iff_of_false (by simp) h3
  · exact iff_of_false (by simp)
      (two_or_ne h1 (by decide) (by decide) (by decide) (by decide))
  · exact iff_of_false (by simp)
      (two_or_ne h2 (by decide) (by decide) (by decide) (by decide))
  · exact iff_of_false (by simp)
      (two_or_ne h3 (by decide) (by decide) (by decide) (by decide))
  · exact iff_of_true rfl h4
  · exact iff_of_false (by simp) h4
  · exact iff_of_false (by simp) h4
  · exact iff_of_false (by simp)
      (two_or_ne h1 (by decide) (by decide) (by decide) (by decide))
  · exact iff_of_false (by simp)
      (two_or_ne h2 (by decide) (by decide) (by decide) (by decide))
  · exact iff_of_false (by simp)
      (two_or_ne h3 (by decide) (by decide) (by decide) (by decide))
  · exact iff_of_false (by simp)
      (two_or_ne h4 (by decide) (by decide) (by decide) (by decide))
  · exact iff_of_true rfl h5
  · exact iff_of_false (by simp) h5
  · exact iff_of_false (by simp)
      (fun hm => hm (by rcases h1 with h | h <;> rw [h] <;> decide))
  · exact iff_of_false (by simp)
      (fun hm => hm (by rcases h2 with h | h <;> rw [h] <;> decide))
  · exact iff_of_false (by simp)
      (fun hm => hm (by rcases h3 with h | h <;> rw [h] <;> decide))
  · exact iff_of_false (by simp)
      (fun hm => hm (by rcases h4 with h | h <;> rw [h] <;> decide))
  · exact iff_of_false (by simp)
      (fun hm => hm (by rcases h5 with h | h <;> rw [h] <;> decide))
  · exact iff_of_true rfl
      (by intro hm; simp only [levelTokens, List.mem_cons, List.not_mem_nil,
            or_false] at hm; tauto)

/-- C9: under the derived `PartialOrd`, `Unknown` is strictly greater
than each named level, `partial_cmp` never returns `None`, and a
filter `level >= threshold` always accepts an `Unknown` level. -/
theorem logLevel_unknown_greatest :
    (LogLevel.ltB .Trace .Unknown = true ∧ LogLevel.ltB .Debug .Unknown = true ∧
     LogLevel.ltB .Info .Unknown = true ∧ LogLevel.ltB .Warn .Unknown = true ∧
     LogLevel.ltB .Error .Unknown = true) ∧
    (∀ a b : LogLevel, (LogLevel.partialCmp a b).isSome = true) ∧
    (∀ t : LogLevel, LogLevel.geB .Unknown t = true) := by
  refine ⟨by decide, fun a b => ?_, fun t => ?_⟩
  · cases a <;> cases b <;> rfl
  · cases t <;> rfl

/-! ### Claims about `LogEvent::time` -/

/-- C10: `LogEvent::time` multiplies the millisecond timestamp by
1,000,000 nanoseconds and unwraps the conversion; the conversion
succeeds for timestamp 0 but there is an `i64` timestamp whose
nanosecond value falls outside the representable date range, where the
unwrap panics, so `time` is not total over the `i64` timestamps. -/
theorem time_not_total :
    (∀ ts : Int, LogEvent.time ts = fromUnixTimestampNanos (1000000 * ts)) ∧
    LogEvent.time 0 = some 0 ∧
    (∃ ts : Int, isI64 ts ∧ LogEvent.time ts = none) := by
  refine ⟨fun ts => rfl, by decide, ⟨2 ^ 62, ⟨by norm_num, by norm_num⟩, by decide⟩⟩

/-! ### Helper lemmas about splitting and joining identifiers -/

/-- Splitting never yields an empty list of segments. -/
lemma splitOnDot_ne_nil (s : List Char) : splitOnDot s ≠ [] := by
  cases s with
  | nil => simp [splitOnDot]
  | cons c rest =>
    simp only [splitOnDot]
    split
    · simp
    · split <;> simp

/-- Splitting a dot-headed string prepends an empty segment. -/
lemma splitOnDot_dot (t : List Char) : splitOnDot ('.' :: t) = [] :: splitOnDot t := by
  simp [splitOnDot]

/-- Splitting past a non-dot character extends the first segment. -/
lemma splitOnDot_cons {c : Char} (hc : c ≠ '.') (t : List Char) :
    splitOnDot (c :: t) =
      (c :: (splitOnDot t).headD []) :: (splitOnDot t).tail := by
  simp only [splitOnDot, if_neg hc]
  rcases h : splitOnDot t with _ | ⟨p, ps⟩
  · exact absurd h (splitOnDot_ne_nil t)
  · simp

/-- No segment produced by splitting contains a dot. -/
lemma splitOnDot_nodot : ∀ (s : List Char), ∀ p ∈ splitOnDot s, '.' ∉ p := by
  intro s
  induction s with
  | nil =>
    intro p hp
    simp only [splitOnDot, List.mem_singleton] at hp
    simp [hp]
  | cons c rest ih =>
    intro p hp
    by_cases hc : c = '.'
    · subst hc
      rw [splitOnDot_dot] at hp
      rcases List.mem_cons.mp hp with rfl | hp'
      · simp
      · exact ih p hp'
    · rw [splitOnDot_cons hc] at hp
      rcases h : splitOnDot rest with _ | ⟨q, qs⟩
      · exact absurd h (splitOnDot_ne_nil rest)
      · rw [h] at hp
        simp only [List.headD_cons, List.tail_cons] at hp
        rcases List.mem_cons.mp hp with rfl | hp'
        · intro hd
          rcases List.mem_cons.mp hd with h' | hd'
          · exact hc h'.symm
          · exact ih q (by rw [h]; exact List.mem_cons_self q qs) hd'
        · exact ih p (by rw [h]; exact List.mem_cons_of_mem q hp')

/-- Splitting a dot-free string yields one segment. -/
lemma splitOnDot_single {p : List Char} (h : '.' ∉ p) : splitOnDot p = [p] := by
  induction p with
  | nil => rfl
  | cons c rest ih =>
    have hc : c ≠ '.' := fun hcc => h (hcc ▸ List.mem_cons_self c rest)
    rw [splitOnDot_cons hc, ih (fun hd => h (List.mem_cons_of_mem c hd))]
    rfl

/-- Splitting a string that starts with a dot-free segment, a dot and a
tail yields that segment followed by the split of the tail. -/
lemma splitOnDot_append {p : List Char} (h : '.' ∉ p) (t : List Char) :
    splitOnDot (p ++ '.' :: t) = p :: splitOnDot t := by
  induction p with
  | nil => exact splitOnDot_dot t
  | cons c rest ih =>
    have hc : c ≠ '.' := fun hcc => h (hcc ▸ List.mem_cons_self c rest)
    rw [List.cons_append, splitOnDot_cons hc,
      ih (fun hd => h (List.mem_cons_of_mem c hd))]
    rfl

/-- The cons equation of `joinDot` for a non-empty tail. -/
lemma joinDot_cons (p : List Char) {ps : List (List Char)} (h : ps ≠ []) :
    joinDot (p :: ps) = p ++ '.' :: joinDot ps := by
  rcases ps with _ | ⟨q, qs⟩
  · exact absurd rfl h
  · rfl

/-- Joining undoes splitting. -/
lemma joinDot_splitOnDot (s : List Char) : joinDot (splitOnDot s) = s := by
  induction s with
  | nil => rfl
  | cons c rest ih =>
    by_cases hc : c = '.'
    · subst hc
      rw [splitOnDot_dot, joinDot_cons [] (splitOnDot_ne_nil rest), ih]
      rfl
    · rw [splitOnDot_cons hc]
      rcases h : splitOnDot rest with _ | ⟨q, qs⟩
      · exact absurd h (splitOnDot_ne_nil rest)
      · rw [h] at ih
        simp only [List.headD_cons, List.tail_cons]
        rcases qs with _ | ⟨r, rs⟩
        · simpa [joinDot] using congrArg (c :: ·) ih
        · rw [joinDot_cons (c :: q) (by simp), List.cons_append]
          rw [joinDot_cons q (by simp)] at ih
          rw [ih]

/-- Splitting undoes joining when every part is dot-free. -/
lemma splitOnDot_joinDot :
    ∀ (ps : List (List Char)), ps ≠ [] → (∀ p ∈ ps, '.' ∉ p) →
      splitOnDot (joinDot ps) = ps := by
  intro ps
  induction ps with
  | nil => intro h; exact absurd rfl h
  | cons p qs ih =>
    intro _ hall
    rcases qs with _ | ⟨q, rs⟩
    · exact splitOnDot_single (hall p (List.mem_cons_self p []))
    · rw [joinDot_cons p (by simp),
        splitOnDot_append (hall p (List.mem_cons_self p (q :: rs))),
        ih (by simp) (fun r hr => hall r (List.mem_cons_of_mem p hr))]

/-- The length of a joined list of parts, in additive form. -/
lemma joinDot_length :
    ∀ (ps : List (List Char)), ps ≠ [] →
      (joinDot ps).length + 1 = (ps.map List.length).sum + ps.length := by
  intro ps
  induction ps with
  | nil => intro h; exact absurd rfl h
  | cons p qs ih =>
    intro _
    rcases qs with _ | ⟨q, rs⟩
    · simp [joinDot]
    · rw [joinDot_cons p (by simp)]
      have := ih (by simp)
      simp only [List.map_cons, List.sum_cons, List.length_cons,
        List.length_append] at *
      omega

/-- The last part is a suffix of the join. -/
lemma joinDot_suffix :
    ∀ (ps : List (List Char)) (cls : List Char), cls <:+ joinDot (ps ++ [cls]) := by
  intro ps cls
  induction ps with
  | nil => exact List.suffix_refl cls
  | cons p qs ih =>
    rw [List.cons_append, joinDot_cons p (by simp)]
    exact ih.trans ((List.suffix_cons '.' _).trans (List.suffix_append p _))

/-! ### Helper lemmas about the compressor -/

/-- Once the remaining length fits the target, the cut counter is
frozen for the rest of the walk. -/
lemma cutAmount_of_le (len target : Nat) :
    ∀ ls cut, len - cut ≤ target → cutAmount len target ls cut = cut := by
  intro ls
  induction ls with
  | nil => intro cut _; rfl
  | cons l rest ih =>
    intro cut h
    rw [cutAmount, if_neg (by omega)]
    exact ih cut h

/-- The cut counter never decreases. -/
lemma le_cutAmount (len target : Nat) :
    ∀ ls cut, cut ≤ cutAmount len target ls cut := by
  intro ls
  induction ls with
  | nil => intro cut; exact Nat.le_refl cut
  | cons l rest ih =>
    intro cut
    rw [cutAmount]
    split
    · exact le_trans (Nat.le_add_right cut (l - 1)) (ih (cut + (l - 1)))
    · exact ih cut

/-- A larger target never cuts more: the final cut counter is antitone
in the target width.  The invariant carried through the walk is that
the run with the larger target is either frozen already or has cut
exactly as much as the other run. -/
lemma cutAmount_mono (len : Nat) {t1 t2 : Nat} (ht : t1 ≤ t2) :
    ∀ ls c1 c2, c2 ≤ c1 → (len - c2 ≤ t2 ∨ c1 = c2) →
      cutAmount len t2 ls c2 ≤ cutAmount len t1 ls c1 := by
  intro ls
  induction ls with
  | nil => intro c1 c2 h _; simpa [cutAmount] using h
  | cons l rest ih =>
    intro c1 c2 h hinv
    rw [cutAmount, cutAmount]
    by_cases h2 : len - c2 > t2
    · have hc : c1 = c2 := by rcases hinv with hinv | hinv <;> omega
      subst hc
      rw [if_pos h2, if_pos (by omega)]
      exact ih (c1 + (l - 1)) (c1 + (l - 1)) (Nat.le_refl _) (Or.inr rfl)
    · rw [if_neg h2]
      by_cases h1 : len - c1 > t1
      · rw [if_pos h1]
        exact ih (c1 + (l - 1)) c2 (by omega) (Or.inl (by omega))
      · rw [if_neg h1]
        exact ih c1 c2 h (Or.inl (by omega))

/-- The loop of `Source::reduced` is total on non-empty segments and
returns, for each input segment, a non-empty prefix of it; the sum of
the output lengths plus the final cut counter balances the sum of the
input lengths plus the initial counter. -/
lemma reduceParts_spec (len target : Nat) :
    ∀ (ps : List (List Char)) (cut : Nat), (∀ p ∈ ps, p ≠ []) →
      ∃ res, reduceParts len target ps cut = some res ∧
        List.Forall₂ (fun a b => a <+: b) res ps ∧
        (res.map List.length).sum + cutAmount len target (ps.map List.length) cut
          = (ps.map List.length).sum + cut := by
  intro ps
  induction ps with
  | nil =>
    intro cut _
    exact ⟨[], rfl, List.Forall₂.nil, by simp [cutAmount]⟩
  | cons p rest ih =>
    intro cut hne
    obtain ⟨c, p', rfl⟩ : ∃ c p', p = c :: p' := by
      rcases p with _ | ⟨c, p'⟩
      · exact absurd rfl (hne [] (List.mem_cons_self [] rest))
      · exact ⟨c, p', rfl⟩
    by_cases hc : len - cut > target
    · obtain ⟨res, hres, hfa, hlen⟩ :=
        ih (cut + ((c :: p').length - 1)) (fun q hq => hne q (List.mem_cons_of_mem _ hq))
      refine ⟨[c] :: res, ?_, ?_, ?_⟩
      · rw [reduceParts, if_pos hc, hres]
        rfl
      · exact List.Forall₂.cons ⟨p', rfl⟩ hfa
      · simp only [List.map_cons, List.sum_cons, List.length_cons,
          List.length_nil, Nat.add_sub_cancel, cutAmount, if_pos hc]
          at hlen ⊢
        omega
    · obtain ⟨res, hres, hfa, hlen⟩ :=
        ih cut (fun q hq => hne q (List.mem_cons_of_mem _ hq))
      refine ⟨(c :: p') :: res, ?_, ?_, ?_⟩
      · rw [reduceParts, if_neg hc, hres]
        rfl
      · exact List.Forall₂.cons (List.prefix_refl (c :: p')) hfa
      · simp only [List.map_cons, List.sum_cons, List.length_cons,
          cutAmount, if_neg hc] at hlen ⊢
        omega

/-- Every left element of a `Forall₂` pair is related to some right
element. -/
lemma forall₂_mem_left {R : List Char → List Char → Prop} :
    ∀ {as bs : List (List Char)}, List.Forall₂ R as bs →
      ∀ a ∈ as, ∃ b ∈ bs, R a b := by
  intro as bs h
  induction h with
  | nil => intro a ha; exact absurd ha (List.not_mem_nil a)
  | cons hr _ ih =>
    intro a ha
    rcases List.mem_cons.mp ha with rfl | ha'
    · exact ⟨_, List.mem_cons_self _ _, hr⟩
    · obtain ⟨b, hb, hrb⟩ := ih a ha'
      exact ⟨b, List.mem_cons_of_mem _ hb, hrb⟩

/-- A non-empty list is its leading segments followed by its last
element. -/
lemma dropLast_append_getLastD {l : List (List Char)} (h : l ≠ []) :
    l.dropLast ++ [l.getLastD []] = l := by
  rw [List.getLastD_eq_getLast?, List.getLast?_eq_getLast l h]
  exact List.dropLast_concat_getLast h

/-- Master specification of `Source::reduced` for identifiers whose
non-final segments are all non-empty: the call succeeds, every output
segment is a prefix of the matching input segment, the class segment is
kept last and intact, and the output length plus the total cut equals
the input length. -/
lemma reduced_spec (s : List Char) (target : Nat)
    (h : ∀ p ∈ (splitOnDot s).dropLast, p ≠ []) :
    ∃ r, reduced s target = some r ∧
      List.Forall₂ (fun a b => a <+: b) (splitOnDot r) (splitOnDot s) ∧
      (splitOnDot r).getLast? = (splitOnDot s).getLast? ∧
      (splitOnDot s).getLastD [] <:+ r ∧
      r.length + cutAmount s.length target
        (((splitOnDot s).dropLast).map List.length) 0 = s.length := by
  have hps : splitOnDot s ≠ [] := splitOnDot_ne_nil s
  have hdecomp : (splitOnDot s).dropLast ++ [(splitOnDot s).getLastD []] =
      splitOnDot s := dropLast_append_getLastD hps
  by_cases hfit : s.length ≤ target
  · refine ⟨s, by rw [reduced, if_pos hfit], ?_, rfl, ?_, ?_⟩
    · exact List.forall₂_same.mpr (fun x _ => List.prefix_refl x)
    · have := joinDot_suffix (splitOnDot s).dropLast ((splitOnDot s).getLastD [])
      rwa [hdecomp, joinDot_splitOnDot] at this
    · rw [cutAmount_of_le _ _ _ 0 (by omega)]
      omega
  · obtain ⟨res, hres, hfa, hlen⟩ :=
      reduceParts_spec s.length target (splitOnDot s).dropLast 0 h
    set cls := (splitOnDot s).getLastD [] with hcls
    have hclsmem : cls ∈ splitOnDot s := by
      rw [← hdecomp]
      exact List.mem_append_right _ (List.mem_singleton_self cls)
    have hsplit : splitOnDot (joinDot (res ++ [cls])) = res ++ [cls] := by
      apply splitOnDot_joinDot _ (by simp)
      intro q hq
      rcases List.mem_append.mp hq with hq' | hq'
      · obtain ⟨b, hb, hpre⟩ := forall₂_mem_left hfa q hq'
        exact fun hd => splitOnDot_nodot s b
          (List.dropLast_subset _ hb) (hpre.subset hd)
      · rw [List.mem_singleton.mp hq']
        exact splitOnDot_nodot s cls hclsmem
    refine ⟨joinDot (res ++ [cls]), ?_, ?_, ?_, joinDot_suffix res cls, ?_⟩
    · rw [reduced, if_neg hfit]
      dsimp only
      rw [hres]
      rfl
    · rw [hsplit, ← hdecomp]
      exact List.rel_append hfa
        (List.Forall₂.cons (List.prefix_refl cls) List.Forall₂.nil)
    · rw [hsplit, ← hdecomp, List.getLast?_concat, List.getLast?_concat]
    · have hjl := joinDot_length (res ++ [cls]) (by simp)
      have hsl := joinDot_length (splitOnDot s) hps
      rw [joinDot_splitOnDot] at hsl
      have hlq := hfa.length_eq
      rw [← hdecomp] at hsl
      simp only [List.map_append, List.sum_append, List.length_append,
        List.map_cons, List.map_nil, List.sum_cons, List.sum_nil,
        List.length_cons, List.length_nil] at hjl hsl
      omega

/-! ### Claims about the compressor -/

/-- C2 (counterexample): for the identifier `.a` (two segments, the
non-final one empty) and target width 0, `Source::reduced` panics
(`"".split_at(1)` is out of bounds), so the Compressor is not total
over all identifier strings. -/
theorem reduced_total_cex : reduced ".a".data 0 = none := by decide

/-- C2 (amended): for every identifier whose non-final dot-separated
segments are all non-empty, and every target width, the Compressor
returns a string. -/
theorem reduced_total (s : List Char) (target : Nat)
    (h : ∀ p ∈ (splitOnDot s).dropLast, p ≠ []) :
    ∃ r, reduced s target = some r := by
  obtain ⟨r, hr, -, -, -, -⟩ := reduced_spec s target h
  exact ⟨r, hr⟩

/-- Witness for C2's amended theorem at a concrete input. -/
theorem reduced_total_witness : ∃ r, reduced "ab.cd".data 0 = some r :=
  reduced_total "ab.cd".data 0 (by decide)

/-- C4 (counterexample): `.ab` is a multi-segment identifier, yet at
target width 0 the Compressor panics, so there is no result ending in
the class segment. -/
theorem reduced_class_cex :
    (splitOnDot ".ab".data).length = 2 ∧ reduced ".ab".data 0 = none := by
  decide

/-- C4 (amended): for every multi-segment identifier whose non-final
segments are all non-empty and every target width, the result ends with
the original class segment unmodified, and the number and order of
dot-delimited segments are preserved (each output segment is a prefix
of the corresponding input segment). -/
theorem reduced_preserves_class (s : List Char) (target : Nat)
    (_hm : 2 ≤ (splitOnDot s).length)
    (h : ∀ p ∈ (splitOnDot s).dropLast, p ≠ []) :
    ∃ r, reduced s target = some r ∧
      (splitOnDot s).getLastD [] <:+ r ∧
      (splitOnDot r).length = (splitOnDot s).length ∧
      (splitOnDot r).getLast? = (splitOnDot s).getLast? ∧
      List.Forall₂ (fun a b => a <+: b) (splitOnDot r) (splitOnDot s) := by
  obtain ⟨r, hr, hfa, hlast, hsuf, -⟩ := reduced_spec s target h
  exact ⟨r, hr, hsuf, hfa.length_eq, hlast, hfa⟩

/-- Witness for C4's amended theorem at a concrete input. -/
theorem reduced_preserves_class_witness :
    ∃ r, reduced "ab.cd".data 1 = some r ∧
      (splitOnDot "ab.cd".data).getLastD [] <:+ r ∧
      (splitOnDot r).length = (splitOnDot "ab.cd".data).length ∧
      (splitOnDot r).getLast? = (splitOnDot "ab.cd".data).getLast? ∧
      List.Forall₂ (fun a b => a <+: b) (splitOnDot r) (splitOnDot "ab.cd".data) :=
  reduced_preserves_class "ab.cd".data 1 (by decide) (by decide)

/-- C5 (counterexample): for the identifier `.x` and widths `0 < 5`,
the Compressor panics at width 0 while succeeding at width 5, so the
claimed length comparison has no left-hand value. -/
theorem reduced_mono_cex :
    reduced ".x".data 0 = none ∧ reduced ".x".data 5 = some ".x".data := by
  decide

/-- C5 (amended): for every identifier whose non-final segments are all
non-empty and all target widths `w1 < w2`, both compressions succeed
and the result at `w1` is no longer than the result at `w2`. -/
theorem reduced_length_mono (s : List Char) (w1 w2 : Nat)
    (h : ∀ p ∈ (splitOnDot s).dropLast, p ≠ []) (hw : w1 < w2) :
    ∃ r1 r2, reduced s w1 = some r1 ∧ reduced s w2 = some r2 ∧
      r1.length ≤ r2.length := by
  obtain ⟨r1, h1, -, -, -, hl1⟩ := reduced_spec s w1 h
  obtain ⟨r2, h2, -, -, -, hl2⟩ := reduced_spec s w2 h
  have hmono := cutAmount_mono s.length (Nat.le_of_lt hw)
    (((splitOnDot s).dropLast).map List.length) 0 0 (Nat.le_refl 0) (Or.inr rfl)
  exact ⟨r1, r2, h1, h2, by omega⟩

/-- Witness for C5's amended theorem at a concrete input. -/
theorem reduced_length_mono_witness :
    ∃ r1 r2, reduced "gda.device.scannable".data 3 = some r1 ∧
      reduced "gda.device.scannable".data 10 = some r2 ∧
      r1.length ≤ r2.length :=
  reduced_length_mono "gda.device.scannable".data 3 10 (by decide) (by decide)

end Logback
